import Mathlib

/-!
Shallow embedding of the route-trie router (src/index.js) and proofs about it.

Strings are processed as their underlying character lists throughout, so that
every operation is structurally recursive and evaluates inside the kernel.
The host regex engine is out of scope per the design (regexes are only
compiled, stored and consulted); a regex is represented by its source text and
`match`-time evaluation is a parameter `rt : String → String → Bool`.
-/

namespace RouteTrie

/-- Character class `[A-Za-z0-9!$%&'*+,-.:;=@_~]` used by `suffixReg` and
`doubleColonReg` (src/index.js lines 6-7). The apostrophe is code point 39. -/
def isPathChar (c : Char) : Bool :=
  c.isAlpha || c.isDigit || c = '!' || c = '$' || c = '%' || c = '&' ||
  c.toNat = 39 || c = '*' || c = '+' || c = ',' || c = '-' || c = '.' ||
  c = ':' || c = ';' || c = '=' || c = '@' || c = '_' || c = '~'

/-- `\w` character: `[A-Za-z0-9_]`. -/
def isWordChar (c : Char) : Bool :=
  c.isAlpha || c.isDigit || c = '_'

/-- `wordReg.test`: `/^\w+$/` (line 5): nonempty and all word characters. -/
def wordTest (s : String) : Bool :=
  !s.data.isEmpty && s.data.all isWordChar

/-- `doubleColonReg.test`: `/^::[A-Za-z0-9!$%&'*+,-.:;=@_~]*$/` (line 7). -/
def doubleColonTest (s : String) : Bool :=
  match s.data with
  | ':' :: ':' :: rest => rest.all isPathChar
  | _ => false

/-- `name.search(suffixReg)` with `suffixReg = /\+[A-Za-z0-9!$%&'*+,-.:;=@_~]*$/`
(line 6): index of the first `+` whose entire tail lies in the class, if any. -/
def suffixSearch : List Char → Option Nat
  | [] => none
  | c :: rest =>
    if c = '+' && rest.all isPathChar then some 0
    else (suffixSearch rest).map (· + 1)

/-- `name.indexOf('(')`-style first index of a character. -/
def idxOf (c : Char) : List Char → Option Nat
  | [] => none
  | d :: rest => if d = c then some 0 else (idxOf c rest).map (· + 1)

/-- Last character of a string's character list. -/
def lastChar : List Char → Option Char
  | [] => none
  | [c] => some c
  | _ :: c :: rest => lastChar (c :: rest)

/-- ASCII lower-casing of one character (the paths in scope are ASCII). -/
def lowerChar (c : Char) : Char :=
  if c.isUpper then Char.ofNat (c.toNat + 32) else c

/-- `toLowerCase`. -/
def lowerStr (s : String) : String :=
  ⟨s.data.map lowerChar⟩

/-- String length, as a character count. -/
def strLen (s : String) : Nat :=
  s.data.length

/-- First character test (`s[0] === c`, false for the empty string). -/
def headIs (s : String) (c : Char) : Bool :=
  s.data.head? = some c

/-- `isPrefixList p l`: `p` is a prefix of `l`. -/
def isPrefixList : List Char → List Char → Bool
  | [], _ => true
  | _ :: _, [] => false
  | a :: as, b :: bs => a = b && isPrefixList as bs

/-- `segment.endsWith(suffix)`. -/
def strEndsWith (s suf : String) : Bool :=
  isPrefixList suf.data.reverse s.data.reverse

/-- `s.slice(0, s.length - n)`: drop `n` characters from the right. -/
def strDropRight (s : String) (n : Nat) : String :=
  ⟨s.data.take (s.data.length - n)⟩

/-- `path.slice(0, end - 1)`: drop the final character. -/
def strDropLast (s : String) : String :=
  ⟨s.data.dropLast⟩

/-- `pattern.includes('//')`. -/
def hasDoubleSlashCs : List Char → Bool
  | c :: d :: rest => (c = '/' && d = '/') || hasDoubleSlashCs (d :: rest)
  | _ => false

def hasDoubleSlash (s : String) : Bool :=
  hasDoubleSlashCs s.data

/-- `pattern.replace(/^\//, '')`: strip one leading slash (line 8). -/
def stripLeadSlash (s : String) : String :=
  if headIs s '/' then ⟨s.data.drop 1⟩ else s

/-- `split('/')` on a character list; always returns at least one segment. -/
def splitSlash : List Char → List (List Char)
  | [] => [[]]
  | c :: rest =>
    let r := splitSlash rest
    if c = '/' then [] :: r
    else
      match r with
      | s :: ss => (c :: s) :: ss
      | [] => [[c]]

/-- The segment list of a string, as strings. -/
def segmentsOf (s : String) : List String :=
  (splitSlash s.data).map (fun cs => (⟨cs⟩ : String))

/-- `path.replace(/\/{2,}/g, '/')` (line 9): collapse slash runs.
The flag records whether the previous character was a slash. -/
def collapseAux : List Char → Bool → List Char
  | [], _ => []
  | c :: rest, prev =>
    if c = '/' then
      if prev then collapseAux rest true else '/' :: collapseAux rest true
    else c :: collapseAux rest false

def collapseSlashes (s : String) : String :=
  ⟨collapseAux s.data false⟩

/-- `'/'.join` of segments (`path.slice(start, end)` for a wildcard capture). -/
def joinSegs : List String → String
  | [] => ""
  | [s] => s
  | s :: rest => s ++ "/" ++ joinSegs rest

/-- The error classes thrown by the router. -/
inductive RouteError where
  | typeErr
  | multiSlash
  | pathFormat
  | invalidPattern
  | nameConflict
  | wildcardAfter
deriving DecidableEq, Repr

/-- The scalar fields of a trie `Node` (src/index.js lines 25-40); the handler
values are opaque to the core, so `handlers` keeps the registered methods. -/
structure NodeData where
  name : String := ""
  allow : String := ""
  pattern : String := ""
  segment : String := ""
  priority : Nat := 0
  suffix : String := ""
  regex : Option String := none
  endpoint : Bool := false
  wildcard : Bool := false
  handlers : List String := []
deriving DecidableEq, Repr

/-- A trie node: scalar data, the static `children` map (an association list
from normalized key to child) and the ordered dynamic `varyChildren` list.
The JS `parent` back-reference is not represented: it is a non-owning link
used only for upward pruning and diagnostics, which the functional embedding
performs by structural recursion from above. -/
inductive Node : Type where
  | mk (data : NodeData) (children : List (String × Node))
       (varyChildren : List Node) : Node

def Node.data : Node → NodeData
  | .mk d _ _ => d

def Node.children : Node → List (String × Node)
  | .mk _ c _ => c

def Node.varyChildren : Node → List Node
  | .mk _ _ v => v

def Node.new : Node := .mk {} [] []

def Node.withData (n : Node) (d : NodeData) : Node :=
  .mk d n.children n.varyChildren

def Node.withChildren (n : Node) (c : List (String × Node)) : Node :=
  .mk n.data c n.varyChildren

def Node.withVary (n : Node) (v : List Node) : Node :=
  .mk n.data n.children v

def Node.withSegment (n : Node) (s : String) : Node :=
  n.withData { n.data with segment := s }

def Node.withEndpoint (n : Node) (b : Bool) : Node :=
  n.withData { n.data with endpoint := b }

def Node.withPattern (n : Node) (p : String) : Node :=
  n.withData { n.data with pattern := p }

theorem node_eta (n : Node) : Node.mk n.data n.children n.varyChildren = n := by
  cases n; rfl

/-- The result record of `Trie.match` (lines 11-23). `params` is an
association list from parameter name to captured value. -/
structure Matched where
  node : Option Node
  params : List (String × String)
  fpr : String
  tsr : String

/-- The trie: the three options and the root node (lines 78-87). -/
structure Trie where
  ignoreCase : Bool
  fpr : Bool
  tsr : Bool
  root : Node

def Trie.new (ic f ts : Bool) : Trie :=
  { ignoreCase := ic, fpr := f, tsr := ts, root := Node.new }

/-- `_getSegmentKey` (lines 196-205). -/
def getSegmentKey (ic : Bool) (segment : String) : String :=
  let key := if doubleColonTest segment then (⟨segment.data.drop 1⟩ : String) else segment
  if ic then lowerStr key else key

/-- `parent.children[key]` lookup in the static map. -/
def lookupChild : List (String × Node) → String → Option Node
  | [], _ => none
  | (k, v) :: rest, key => if k = key then some v else lookupChild rest key

/-- `parent.children[key] = node`: replace or append. -/
def setChild : List (String × Node) → String → Node → List (String × Node)
  | [], key, v => [(key, v)]
  | (k, w) :: rest, key, v =>
    if k = key then (k, v) :: rest else (k, w) :: setChild rest key v

/-- `delete parent.children[key]`. -/
def delChild : List (String × Node) → String → List (String × Node)
  | [], _ => []
  | (k, w) :: rest, key => if k = key then rest else (k, w) :: delChild rest key

/-- Where a child lives in its parent: under a static key, or at an index of
`varyChildren`. Encodes the JS object reference held by the caller. -/
inductive Step where
  | key (k : String)
  | vary (i : Nat)
deriving DecidableEq, Repr

def getAt (n : Node) : Step → Option Node
  | .key k => lookupChild n.children k
  | .vary i => n.varyChildren.get? i

def setAt (n : Node) : Step → Node → Node
  | .key k, c => n.withChildren (setChild n.children k c)
  | .vary i, c => n.withVary (n.varyChildren.set i c)

/-- Outcome of the dynamic-segment clause parsing inside `_parseNode`. -/
structure DynInfo where
  name : String
  wildcard : Bool
  suffix : String
  regex : Option String
  priority : Nat
deriving DecidableEq, Repr

/-- The regex-clause step of `_parseNode` (lines 276-288): when the name ends
in `)` and contains `(` at a positive index, the text strictly between them is
the regex source; an empty source is an error, a regex sets priority to 3. -/
def regexStep (name : String) (suffix : String) (prio : Nat) :
    Except RouteError DynInfo :=
  if lastChar name.data = some ')' then
    match idxOf '(' name.data with
    | some i =>
      if 0 < i then
        let src : String := ⟨(name.data.drop (i + 1)).dropLast⟩
        if 0 < strLen src then
          .ok ⟨⟨name.data.take i⟩, false, suffix, some src, 3⟩
        else .error .invalidPattern
      else .ok ⟨name, false, suffix, none, prio⟩
    | none => .ok ⟨name, false, suffix, none, prio⟩
  else .ok ⟨name, false, suffix, none, prio⟩

/-- The `switch` over the dynamic segment name in `_parseNode` (lines 257-293),
including the default priority 2 for a plain parameter: a trailing `*` marks a
wildcard (priority 1); otherwise a `+suffix` clause (priority 4, empty suffix
is an error) and then a `(regex)` clause are stripped. -/
def stripClauses (nameRaw : String) : Except RouteError DynInfo :=
  let base : Except RouteError DynInfo :=
    match lastChar nameRaw.data with
    | some '*' => .ok ⟨⟨nameRaw.data.dropLast⟩, true, "", none, 1⟩
    | _ =>
      match suffixSearch nameRaw.data with
      | some n =>
        let suffix : String := ⟨nameRaw.data.drop (n + 1)⟩
        if suffix = "" then .error .invalidPattern
        else regexStep ⟨nameRaw.data.take n⟩ suffix 4
      | none => regexStep nameRaw "" 0
  match base with
  | .error e => .error e
  | .ok info =>
    if info.priority = 0 then .ok { info with priority := 2 } else .ok info

/-- The dedup `continue` condition of `_parseNode`'s loop (lines 301-303):
skip the sibling when the wildcard flags differ, the suffixes differ, or both
regexes are present with different source text. -/
def varySigSkip (child : Node) (wc : Bool) (sfx : String) (rx : Option String) : Bool :=
  child.data.wildcard != wc || child.data.suffix != sfx ||
    (child.data.regex.isSome && rx.isSome && child.data.regex != rx)

/-- The dedup loop of `_parseNode` (lines 300-309): the first sibling whose
type signature is not skipped either conflicts on the name or is returned,
with its index. -/
def varyFind (wc : Bool) (sfx : String) (rx : Option String) (nm : String) :
    List Node → Except RouteError (Option (Nat × Node))
  | [] => .ok none
  | child :: rest =>
    if varySigSkip child wc sfx rx then
      (varyFind wc sfx rx nm rest).map (Option.map (fun p => (p.1 + 1, p.2)))
    else if child.data.name ≠ nm then .error .nameConflict
    else .ok (some (0, child))

/-- Stable descending insertion by priority, placing a node after all
siblings of equal or higher priority. -/
def insertDesc (x : Node) : List Node → List Node
  | [] => [x]
  | y :: ys =>
    if y.data.priority < x.data.priority then x :: y :: ys
    else y :: insertDesc x ys

/-- `varyChildren.sort((a, b) => b.priority - a.priority)`: JS `sort` is
stable, and a stable sort under this comparator is exactly the stable
descending insertion sort. -/
def sortDesc : List Node → List Node
  | [] => []
  | x :: xs => insertDesc x (sortDesc xs)

/-- Index of the first node satisfying `p`, or the list length. -/
def firstIdx (p : Node → Bool) : List Node → Nat
  | [] => 0
  | c :: rest => if p c then 0 else firstIdx p rest + 1

/-- `_parseNode(parent, segment)` (lines 244-325). Returns the updated parent,
the child to use, and the `Step` naming where the child lives in the parent
(the JS reference to it). Branch order follows the source exactly: the static
map is probed first; then the empty segment, the `:`-dynamic branch, the
double-colon branch, the reserved leading characters, and the static default.
For a freshly pushed dynamic child the step index is the position of the
unique non-skipped signature in the re-sorted list, which is where the new
node landed. -/
def parseNode (ic : Bool) (parent : Node) (segment : String) :
    Except RouteError (Node × Node × Step) :=
  let key := getSegmentKey ic segment
  match lookupChild parent.children key with
  | some c => .ok (parent, c, .key key)
  | none =>
    if segment = "" then
      let node : Node := .mk { priority := 100 } [] []
      .ok (parent.withChildren (setChild parent.children "" node), node, .key "")
    else if headIs segment ':' then
      match stripClauses ⟨segment.data.drop 1⟩ with
      | .error e => .error e
      | .ok info =>
        if ¬ wordTest info.name then .error .invalidPattern
        else
          match varyFind info.wildcard info.suffix info.regex info.name parent.varyChildren with
          | .error e => .error e
          | .ok (some (i, c)) => .ok (parent, c, .vary i)
          | .ok none =>
            let node : Node := .mk { name := info.name, priority := info.priority,
                                     suffix := info.suffix, regex := info.regex,
                                     wildcard := info.wildcard } [] []
            let pushed := parent.varyChildren ++ [node]
            let vc := if 1 < pushed.length then sortDesc pushed else pushed
            let idx := firstIdx (fun c => !varySigSkip c info.wildcard info.suffix info.regex) vc
            .ok (parent.withVary vc, node, .vary idx)
    else if doubleColonTest segment then
      let node : Node := .mk { priority := 50 } [] []
      .ok (parent.withChildren (setChild parent.children key node), node, .key key)
    else if headIs segment '*' || headIs segment '(' || headIs segment ')' then
      .error .invalidPattern
    else
      let node : Node := .mk { priority := 50 } [] []
      .ok (parent.withChildren (setChild parent.children key node), node, .key key)

/-- `_defineNode(parent, segments)` (lines 207-220), returning the updated
parent and the endpoint node. The `pattern` assignment from `define`
(lines 99-101) is applied at the endpoint, where the node is in hand; the
source performs it on the same object immediately after `_defineNode`
returns, with no intervening read. -/
def defineNode (ic : Bool) (pat : String) (parent : Node) :
    List String → Except RouteError (Node × Node)
  | [] => .error .typeErr
  | seg :: rest =>
    match parseNode ic parent seg with
    | .error e => .error e
    | .ok (p1, child, step) =>
      let child1 := child.withSegment seg
      match rest with
      | [] =>
        let child2 := child1.withEndpoint true
        let child3 := if child2.data.pattern = "" then child2.withPattern pat else child2
        .ok (setAt p1 step child3, child3)
      | _ :: _ =>
        if child1.data.wildcard then .error .wildcardAfter
        else
          match defineNode ic pat child1 rest with
          | .error e => .error e
          | .ok (child', n) => .ok (setAt p1 step child', n)

/-- `Trie.define(pattern)` (lines 89-103). -/
def defineFn (t : Trie) (pattern : String) : Except RouteError (Trie × Node) :=
  if hasDoubleSlash pattern then .error .multiSlash
  else
    match defineNode t.ignoreCase pattern t.root (segmentsOf (stripLeadSlash pattern)) with
    | .error e => .error e
    | .ok (root', n) => .ok ({ t with root := root' }, n)

/-- The `varyChildren` scan of `_matchNode` (lines 228-240): a declared suffix
must be a proper trailing part of the segment and is stripped before the
regex (if any) is tested. -/
def varyMatch (rt : String → String → Bool) (seg : String) : List Node → Option Node
  | [] => none
  | child :: rest =>
    if child.data.suffix ≠ "" ∧ (seg = child.data.suffix ∨ strEndsWith seg child.data.suffix = false) then
      varyMatch rt seg rest
    else
      let s := if child.data.suffix = "" then seg else strDropRight seg (strLen child.data.suffix)
      match child.data.regex with
      | some r => if rt r s then some child else varyMatch rt seg rest
      | none => some child

/-- `_matchNode(parent, segment)` (lines 222-242). -/
def matchNodeFn (ic : Bool) (rt : String → String → Bool) (parent : Node) (seg : String) :
    Option Node :=
  let key := if ic then lowerStr seg else seg
  match lookupChild parent.children key with
  | some c => some c
  | none => varyMatch rt seg parent.varyChildren

/-- The per-segment node resolution of `match` (lines 128-131): a second
attempt on the lower-cased segment when case-insensitive and the first
attempt missed. -/
def resolveNode (rt : String → String → Bool) (t : Trie) (parent : Node) (seg : String) :
    Option Node :=
  let n0 := matchNodeFn t.ignoreCase rt parent seg
  if t.ignoreCase = true ∧ n0.isNone = true then
    matchNodeFn t.ignoreCase rt parent (lowerStr seg)
  else n0

/-- `matched.params[name] = value`: insert or overwrite. -/
def setParam : List (String × String) → String → String → List (String × String)
  | [], k, v => [(k, v)]
  | (k', v') :: rest, k, v =>
    if k' = k then (k', v) :: rest else (k', v') :: setParam rest k v

/-- The epilogue of `match` after the scan (lines 158-171). -/
def finish (t : Trie) (fGt : Bool) (path : String) (parent : Node)
    (params : List (String × String)) : Matched × Trie :=
  if parent.data.endpoint = true then
    if t.fpr = true ∧ fGt = true then
      ({ node := none, params := params, fpr := path, tsr := "" }, t)
    else
      ({ node := some parent, params := params, fpr := "", tsr := "" }, t)
  else if t.tsr = true ∧ (lookupChild parent.children "").isSome = true then
    if t.fpr = true ∧ fGt = true then
      ({ node := none, params := params, fpr := path ++ "/", tsr := "" }, t)
    else
      ({ node := none, params := params, fpr := "", tsr := path ++ "/" }, t)
  else ({ node := none, params := params, fpr := "", tsr := "" }, t)

/-- The segment scan of `match` (lines 122-156), written over the segment
list of the (possibly collapsed) path; `fGt` is `fixedLen > 0`. The trie is
threaded through every step and returned by every exit, mirroring that the
source reads it and hands it back untouched. -/
def matchLoop (rt : String → String → Bool) (t : Trie) (fGt : Bool) (path : String) :
    Node → List (String × String) → List String → Matched × Trie
  | parent, params, [] => finish t fGt path parent params
  | parent, params, seg :: rest =>
    match resolveNode rt t parent seg with
    | none =>
      if t.tsr = true ∧ seg = "" ∧ rest = [] ∧ parent.data.endpoint = true then
        if t.fpr = true ∧ fGt = true then
          ({ node := none, params := params, fpr := strDropLast path, tsr := "" }, t)
        else
          ({ node := none, params := params, fpr := "", tsr := strDropLast path }, t)
      else ({ node := none, params := params, fpr := "", tsr := "" }, t)
    | some nd =>
      if nd.data.name = "" then
        matchLoop rt t fGt path nd params rest
      else if nd.data.wildcard = true then
        finish t fGt path nd (setParam params nd.data.name (joinSegs (seg :: rest)))
      else
        let seg2 := if nd.data.suffix = "" then seg else strDropRight seg (strLen nd.data.suffix)
        matchLoop rt t fGt path nd (setParam params nd.data.name seg2) rest

/-- `Trie.match(path)` (lines 105-172). Returns the result together with the
trie the call leaves behind. -/
def matchFn (rt : String → String → Bool) (t : Trie) (path0 : String) :
    Except RouteError Matched × Trie :=
  if path0.data.head? ≠ some '/' then (.error .pathFormat, t)
  else
    let path := if t.fpr then collapseSlashes path0 else path0
    let fixedLen := if t.fpr then strLen path0 - strLen path else strLen path0
    let fGt := decide (0 < fixedLen)
    let segs := (splitSlash (path.data.drop 1)).map (fun cs => (⟨cs⟩ : String))
    let r := matchLoop rt t fGt path t.root [] segs
    (.ok r.1, r.2)

/-- `varyChildren.find(child => child.segment === segment)` with its index
(line 337 and the identity splice of `_pruneNode`, lines 362-364). -/
def varySegFind (seg : String) : List Node → Option (Nat × Node)
  | [] => none
  | c :: rest =>
    if c.data.segment = seg then some (0, c)
    else (varySegFind seg rest).map (fun p => (p.1 + 1, p.2))

/-- `_findNode(path)`'s walk (lines 327-346). -/
def findNodeGo (ic : Bool) (node : Node) : List String → Option Node
  | [] => some node
  | seg :: rest =>
    match lookupChild node.children (getSegmentKey ic seg) with
    | some child => findNodeGo ic child rest
    | none =>
      match varySegFind seg node.varyChildren with
      | some (_, child) => findNodeGo ic child rest
      | none => none

def findNodeFn (t : Trie) (path : String) : Option Node :=
  findNodeGo t.ignoreCase t.root (segmentsOf (stripLeadSlash path))

/-- Eligibility for physical removal (lines 353-355). -/
def canPrune (n : Node) : Bool :=
  !n.data.endpoint && n.children.isEmpty && n.varyChildren.isEmpty

/-- Clearing the target of `remove` (lines 187-189). -/
def clearRoute (n : Node) : Node :=
  n.withData { n.data with endpoint := false, handlers := [], allow := "" }

/-- One upward step of `_pruneNode` (lines 348-373), seen from the parent:
the child (mutated in place by the levels below) is written back to its slot;
if it is prunable, a segment starting with `:` or `*` is spliced out of
`varyChildren` by identity — which removes nothing when the reference lives
in the static map — and any other segment is deleted from the static map
under its recomputed key. -/
def pruneStep (ic : Bool) (parent : Node) (slot : Step) (child' : Node) : Node :=
  let parent1 := setAt parent slot child'
  if canPrune child' then
    if headIs child'.data.segment ':' || headIs child'.data.segment '*' then
      match slot with
      | .vary i => parent1.withVary (parent1.varyChildren.eraseIdx i)
      | .key _ => parent1
    else
      parent1.withChildren (delChild parent1.children (getSegmentKey ic child'.data.segment))
  else parent1

/-- The walk of `remove` (lines 174-192): find the node by structural
identity as `_findNode` does, clear it, and apply the pruning step at each
level on the way back up. `_pruneNode`'s upward recursion stops at the first
ineligible ancestor; applying the step at every ancestor is equivalent,
because a child left in place makes its parent's collections nonempty and
hence ineligible. `none` means the path had no structural counterpart and
the whole call is a no-op. -/
def removeGo (ic : Bool) (node : Node) : List String → Option Node
  | [] => some (clearRoute node)
  | seg :: rest =>
    let key := getSegmentKey ic seg
    match lookupChild node.children key with
    | some child =>
      (removeGo ic child rest).map (fun child' => pruneStep ic node (.key key) child')
    | none =>
      match varySegFind seg node.varyChildren with
      | some (i, child) =>
        (removeGo ic child rest).map (fun child' => pruneStep ic node (.vary i) child')
      | none => none

/-- `Trie.remove(path)` (lines 174-192). -/
def removeFn (t : Trie) (path : String) : Except RouteError Trie :=
  if path.data.head? ≠ some '/' then .error .pathFormat
  else
    match removeGo t.ignoreCase t.root (segmentsOf (stripLeadSlash path)) with
    | some root' => .ok { t with root := root' }
    | none => .ok t

/-- A mutating operation on the trie. -/
inductive Op where
  | defOp (p : String)
  | remOp (p : String)

/-- Apply one operation; a call that throws leaves the trie unchanged
(`define` attaches no endpoint before a throw, `remove` throws only before
its walk). -/
def applyOp (t : Trie) : Op → Trie
  | .defOp p =>
    match defineFn t p with
    | .ok (t', _) => t'
    | .error _ => t
  | .remOp p =>
    match removeFn t p with
    | .ok t' => t'
    | .error _ => t

def applyOps : Trie → List Op → Trie
  | t, [] => t
  | t, op :: ops => applyOps (applyOp t op) ops

def defineOp (t : Trie) (p : String) : Trie := applyOp t (.defOp p)

def removeOp (t : Trie) (p : String) : Trie := applyOp t (.remOp p)

/-- The node returned by a successful `define`. -/
def okNode : Except RouteError (Trie × Node) → Option Node
  | .ok (_, n) => some n
  | .error _ => none

/-- The error of a failed call. -/
def errOf {α : Type} : Except RouteError α → Option RouteError
  | .error e => some e
  | .ok _ => none

def isOkE {α : Type} : Except RouteError α → Bool
  | .ok _ => true
  | .error _ => false

/-- The `Matched` of a `match` call (the empty record when the call threw). -/
def matchedOf (x : Except RouteError Matched × Trie) : Matched :=
  match x.1 with
  | .ok m => m
  | .error _ => ⟨none, [], "", ""⟩

def getParam (m : Matched) (k : String) : Option String :=
  (m.params.find? (fun kv => kv.1 = k)).map (fun kv => kv.2)

/-- How many of the three informative fields of a `Matched` are set. -/
def infoCount (m : Matched) : Nat :=
  (if m.node.isSome then 1 else 0) + (if m.fpr = "" then 0 else 1) +
    (if m.tsr = "" then 0 else 1)

/-- A concrete stand-in for the host regex engine, for witnesses whose
scenarios consult no regex node. -/
def rt0 : String → String → Bool := fun _ _ => false

/-! ### Structural helper lemmas -/

@[simp] theorem data_mk (d : NodeData) (c v) : (Node.mk d c v).data = d := rfl

@[simp] theorem children_mk (d : NodeData) (c v) : (Node.mk d c v).children = c := rfl

@[simp] theorem vary_mk (d : NodeData) (c v) : (Node.mk d c v).varyChildren = v := rfl

@[simp] theorem data_withChildren (n : Node) (c) : (n.withChildren c).data = n.data := by
  cases n; rfl

@[simp] theorem data_withVary (n : Node) (v) : (n.withVary v).data = n.data := by
  cases n; rfl

@[simp] theorem children_withChildren (n : Node) (c) : (n.withChildren c).children = c := by
  cases n; rfl

@[simp] theorem children_withVary (n : Node) (v) : (n.withVary v).children = n.children := by
  cases n; rfl

@[simp] theorem vary_withChildren (n : Node) (c) : (n.withChildren c).varyChildren = n.varyChildren := by
  cases n; rfl

@[simp] theorem vary_withVary (n : Node) (v) : (n.withVary v).varyChildren = v := by
  cases n; rfl

@[simp] theorem data_withData (n : Node) (d) : (n.withData d).data = d := by
  cases n; rfl

@[simp] theorem children_withData (n : Node) (d) : (n.withData d).children = n.children := by
  cases n; rfl

@[simp] theorem vary_withData (n : Node) (d) : (n.withData d).varyChildren = n.varyChildren := by
  cases n; rfl

@[simp] theorem data_setAt (n : Node) (s : Step) (c : Node) : (setAt n s c).data = n.data := by
  cases s <;> simp [setAt]

@[simp] theorem data_pruneStep (ic : Bool) (parent : Node) (slot : Step) (c : Node) :
    (pruneStep ic parent slot c).data = parent.data := by
  unfold pruneStep
  split
  · split
    · cases slot <;> simp
    · simp
  · simp

/-- Every exit of the epilogue returns the trie it was given. -/
theorem finish_trie (t : Trie) (fGt : Bool) (path : String) (parent : Node)
    (params : List (String × String)) : (finish t fGt path parent params).2 = t := by
  unfold finish
  split
  · split <;> rfl
  · split
    · split <;> rfl
    · rfl

/-- Every exit of the segment scan returns the trie it was given. -/
theorem matchLoop_trie (rt : String → String → Bool) (t : Trie) (fGt : Bool) (path : String)
    (segs : List String) (parent : Node) (params : List (String × String)) :
    (matchLoop rt t fGt path parent params segs).2 = t := by
  induction segs generalizing parent params with
  | nil => exact finish_trie ..
  | cons seg rest ih =>
    unfold matchLoop
    cases hres : resolveNode rt t parent seg with
    | none =>
      simp only [hres]
      split
      · split <;> rfl
      · rfl
    | some nd =>
      simp only [hres]
      split
      · exact ih ..
      · split
        · exact finish_trie ..
        · exact ih ..

theorem ite_le_one (c : Prop) [Decidable c] : (if c then (0 : Nat) else 1) ≤ 1 := by
  split <;> simp

/-- The epilogue sets at most one informative field, and sets `tsr` only when
the fixed-path condition is absent. -/
theorem finish_info (t : Trie) (fGt : Bool) (path : String) (parent : Node)
    (params : List (String × String)) :
    infoCount (finish t fGt path parent params).1 ≤ 1 ∧
      ((finish t fGt path parent params).1.tsr ≠ "" → ¬(t.fpr = true ∧ fGt = true)) := by
  unfold finish
  split
  · split
    · exact ⟨by simp [infoCount, ite_le_one], by intro h; simp at h⟩
    · exact ⟨by simp [infoCount], by intro h; simp at h⟩
  · split
    · split
      · exact ⟨by simp [infoCount, ite_le_one], by intro h; simp at h⟩
      · rename_i hno
        exact ⟨by simp [infoCount, ite_le_one], fun _ => hno⟩
    · exact ⟨by simp [infoCount], by intro h; simp at h⟩

/-- The segment scan sets at most one informative field, and sets `tsr` only
when the fixed-path condition is absent. -/
theorem matchLoop_info (rt : String → String → Bool) (t : Trie) (fGt : Bool) (path : String)
    (segs : List String) (parent : Node) (params : List (String × String)) :
    infoCount (matchLoop rt t fGt path parent params segs).1 ≤ 1 ∧
      ((matchLoop rt t fGt path parent params segs).1.tsr ≠ "" →
        ¬(t.fpr = true ∧ fGt = true)) := by
  induction segs generalizing parent params with
  | nil => exact finish_info ..
  | cons seg rest ih =>
    unfold matchLoop
    cases hres : resolveNode rt t parent seg with
    | none =>
      simp only [hres]
      split
      · split
        · exact ⟨by simp [infoCount, ite_le_one], by intro h; simp at h⟩
        · rename_i hno
          exact ⟨by simp [infoCount, ite_le_one], fun _ => hno⟩
      · exact ⟨by simp [infoCount], by intro h; simp at h⟩
    | some nd =>
      simp only [hres]
      split
      · exact ih ..
      · split
        · exact finish_info ..
        · exact ih ..

/-- The levels of the removal walk below the starting node never change the
starting node's scalar data — only its collections. -/
theorem removeGo_cons_data (ic : Bool) (node : Node) (seg : String) (rest : List String)
    (node' : Node) (h : removeGo ic node (seg :: rest) = some node') :
    node'.data = node.data := by
  unfold removeGo at h
  cases hl : lookupChild node.children (getSegmentKey ic seg) with
  | some child =>
    simp only [hl] at h
    rw [Option.map_eq_some'] at h
    obtain ⟨c', _, rfl⟩ := h
    simp
  | none =>
    simp only [hl] at h
    cases hv : varySegFind seg node.varyChildren with
    | some p =>
      cases p with
      | mk i child =>
        simp only [hv] at h
        rw [Option.map_eq_some'] at h
        obtain ⟨c', _, rfl⟩ := h
        simp
    | none => simp only [hv] at h; exact absurd h (by simp)

/-- The removal walk preserves a false endpoint flag on the node it starts
from (clearing the node itself only rewrites `endpoint` to false). -/
theorem removeGo_endpoint (ic : Bool) (node : Node) (segs : List String) (node' : Node)
    (hend : node.data.endpoint = false) (h : removeGo ic node segs = some node') :
    node'.data.endpoint = false := by
  cases segs with
  | nil =>
    unfold removeGo at h
    rw [Option.some.injEq] at h
    subst h
    simp [clearRoute]
  | cons seg rest =>
    rw [removeGo_cons_data ic node seg rest node' h]
    exact hend

/-- `_parseNode` changes only the parent's collections, never its data. -/
theorem parseNode_data (ic : Bool) (parent : Node) (seg : String) (p1 c : Node)
    (step : Step) (h : parseNode ic parent seg = .ok (p1, c, step)) :
    p1.data = parent.data := by
  unfold parseNode at h
  simp only [] at h
  repeat' split at h
  all_goals first
    | exact Except.noConfusion h
    | (simp only [Except.ok.injEq, Prod.mk.injEq] at h
       obtain ⟨hp, -⟩ := h
       subst hp
       simp)

/-- `_defineNode` changes only the parent's collections, never its data. -/
theorem defineNode_data (ic : Bool) (pat : String) (segs : List String) (parent p' n : Node)
    (h : defineNode ic pat parent segs = .ok (p', n)) : p'.data = parent.data := by
  induction segs generalizing parent p' n with
  | nil => exact absurd h (by simp [defineNode])
  | cons seg rest ih =>
    unfold defineNode at h
    split at h
    · exact Except.noConfusion h
    · rename_i p1 child step hp
      split at h
      · simp only [Except.ok.injEq, Prod.mk.injEq] at h
        obtain ⟨hp', -⟩ := h
        subst hp'
        simp [parseNode_data ic parent seg p1 child step hp]
      · simp only [] at h
        split at h
        · exact Except.noConfusion h
        · split at h
          · exact Except.noConfusion h
          · rename_i child' n' hrec
            simp only [Except.ok.injEq, Prod.mk.injEq] at h
            obtain ⟨hp', -⟩ := h
            subst hp'
            simp [parseNode_data ic parent seg p1 child step hp]

/-- `define` never changes the root's scalar data. -/
theorem defineFn_root_data (t : Trie) (p : String) (t' : Trie) (n : Node)
    (h : defineFn t p = .ok (t', n)) : t'.root.data = t.root.data := by
  unfold defineFn at h
  split at h
  · exact absurd h (by simp)
  · split at h
    · exact absurd h (by simp)
    · rename_i root' n' hdef
      simp only [Except.ok.injEq, Prod.mk.injEq] at h
      obtain ⟨ht', -⟩ := h
      rw [← ht']
      exact defineNode_data _ _ _ _ _ _ hdef

/-- `remove` preserves a false endpoint flag on the root. -/
theorem removeFn_root_endpoint (t : Trie) (p : String) (t' : Trie)
    (hend : t.root.data.endpoint = false) (h : removeFn t p = .ok t') :
    t'.root.data.endpoint = false := by
  unfold removeFn at h
  split at h
  · exact absurd h (by simp)
  · split at h
    · rename_i root' hrg
      rw [Except.ok.injEq] at h
      rw [← h]
      exact removeGo_endpoint _ _ _ _ hend hrg
    · rw [Except.ok.injEq] at h
      rw [← h]
      exact hend

/-- Applying any operation preserves a false endpoint flag on the root. -/
theorem applyOp_root_endpoint (t : Trie) (op : Op)
    (hend : t.root.data.endpoint = false) :
    (applyOp t op).root.data.endpoint = false := by
  cases op with
  | defOp p =>
    simp only [applyOp]
    cases hd : defineFn t p with
    | ok r =>
      obtain ⟨t', n⟩ := r
      simp only [hd]
      rw [defineFn_root_data t p t' n hd]
      exact hend
    | error e => simp only [hd]; exact hend
  | remOp p =>
    simp only [applyOp]
    cases hd : removeFn t p with
    | ok t' => simp only [hd]; exact removeFn_root_endpoint t p t' hend hd
    | error e => simp only [hd]; exact hend

/-- Any sequence of define and remove calls leaves the root's endpoint
flag false. -/
theorem applyOps_root_endpoint (t : Trie) (ops : List Op)
    (hend : t.root.data.endpoint = false) :
    (applyOps t ops).root.data.endpoint = false := by
  induction ops generalizing t with
  | nil => exact hend
  | cons op ops ih => exact ih (applyOp t op) (applyOp_root_endpoint t op hend)

/-- The epilogue only ever returns an endpoint as the matched node. -/
theorem finish_node (t : Trie) (fGt : Bool) (path : String) (parent : Node)
    (params : List (String × String)) (n : Node)
    (h : (finish t fGt path parent params).1.node = some n) :
    n.data.endpoint = true := by
  unfold finish at h
  split at h
  · split at h
    · exact absurd h (by simp)
    · rename_i hep _
      rw [Option.some.injEq] at h
      rw [← h]
      exact hep
  · split at h
    · split at h <;> exact absurd h (by simp)
    · exact absurd h (by simp)

/-- The segment scan only ever returns an endpoint as the matched node. -/
theorem matchLoop_node (rt : String → String → Bool) (t : Trie) (fGt : Bool) (path : String)
    (segs : List String) (parent : Node) (params : List (String × String)) (n : Node)
    (h : (matchLoop rt t fGt path parent params segs).1.node = some n) :
    n.data.endpoint = true := by
  induction segs generalizing parent params with
  | nil => exact finish_node _ _ _ _ _ _ h
  | cons seg rest ih =>
    unfold matchLoop at h
    cases hres : resolveNode rt t parent seg with
    | none =>
      simp only [hres] at h
      split at h
      · split at h <;> exact absurd h (by simp)
      · exact absurd h (by simp)
    | some nd =>
      simp only [hres] at h
      split at h
      · exact ih _ _ h
      · split at h
        · exact finish_node _ _ _ _ _ _ h
        · exact ih _ _ h

/-- A successful `match` only ever returns an endpoint as the node. -/
theorem matchFn_node (rt : String → String → Bool) (t : Trie) (p : String) (m : Matched)
    (n : Node) (h : (matchFn rt t p).1 = .ok m) (hn : m.node = some n) :
    n.data.endpoint = true := by
  unfold matchFn at h
  split at h
  · exact absurd h (by simp)
  · simp only [] at h
    rw [Except.ok.injEq] at h
    subst h
    exact matchLoop_node _ _ _ _ _ _ _ _ hn

/-! ### Helper lemmas for the idempotence of define -/

theorem lookupChild_setChild_self (cs : List (String × Node)) (k : String) (v : Node) :
    lookupChild (setChild cs k v) k = some v := by
  induction cs with
  | nil => simp [setChild, lookupChild]
  | cons kv rest ih =>
    obtain ⟨k', w⟩ := kv
    by_cases hk : k' = k
    · simp [setChild, lookupChild, hk]
    · simp [setChild, lookupChild, hk, ih]

theorem setChild_setChild (cs : List (String × Node)) (k : String) (v w : Node) :
    setChild (setChild cs k v) k w = setChild cs k w := by
  induction cs with
  | nil => simp [setChild]
  | cons kv rest ih =>
    obtain ⟨k', u⟩ := kv
    by_cases hk : k' = k
    · simp [setChild, hk]
    · simp [setChild, hk, ih]

theorem withChildren_withChildren (n : Node) (c c' : List (String × Node)) :
    (n.withChildren c).withChildren c' = n.withChildren c' := by
  cases n; rfl

theorem withVary_withVary (n : Node) (v v' : List Node) :
    (n.withVary v).withVary v' = n.withVary v' := by
  cases n; rfl

theorem get?_set_self (l : List Node) (i : Nat) (v w : Node) (h : l.get? i = some w) :
    (l.set i v).get? i = some v := by
  induction l generalizing i with
  | nil => simp at h
  | cons x xs ih =>
    cases i with
    | zero => simp [List.set]
    | succ j =>
      simp only [List.set, List.get?] at h ⊢
      exact ih j h

theorem get?_set_ne (l : List Node) (i j : Nat) (v : Node) (h : j ≠ i) :
    (l.set i v).get? j = l.get? j := by
  induction l generalizing i j with
  | nil => simp
  | cons x xs ih =>
    cases i with
    | zero =>
      cases j with
      | zero => exact absurd rfl h
      | succ j' => simp [List.set]
    | succ i' =>
      cases j with
      | zero => simp [List.set]
      | succ j' =>
        simp only [List.set, List.get?]
        exact ih i' j' (fun hji => h (congrArg Nat.succ hji))

theorem setAt_setAt (n : Node) (s : Step) (v w : Node) :
    setAt (setAt n s v) s w = setAt n s w := by
  cases s with
  | key k =>
    simp [setAt, withChildren_withChildren, setChild_setChild]
  | vary i =>
    simp [setAt, withVary_withVary, List.set_set]

theorem withSegment_self (n : Node) (s : String) (h : n.data.segment = s) :
    n.withSegment s = n := by
  cases n with
  | mk d c v =>
    simp only [Node.withSegment, Node.withData, data_mk, children_mk, vary_mk]
    simp only [data_mk] at h
    rw [← h]

theorem withEndpoint_self (n : Node) (b : Bool) (h : n.data.endpoint = b) :
    n.withEndpoint b = n := by
  cases n with
  | mk d c v =>
    simp only [Node.withEndpoint, Node.withData, data_mk, children_mk, vary_mk]
    simp only [data_mk] at h
    rw [← h]

theorem withPattern_self (n : Node) (p : String) (h : n.data.pattern = p) :
    n.withPattern p = n := by
  cases n with
  | mk d c v =>
    simp only [Node.withPattern, Node.withData, data_mk, children_mk, vary_mk]
    simp only [data_mk] at h
    rw [← h]

/-- The double-colon form starts with a colon, so the escaped-colon branch of
`_parseNode` is unreachable: the dynamic branch captures its segments first. -/
theorem doubleColon_headIs (s : String) (h : doubleColonTest s = true) :
    headIs s ':' = true := by
  unfold doubleColonTest at h
  split at h
  · rename_i rest heq
    simp [headIs, heq]
  · simp at h

/-- A completed dedup scan means every sibling was skipped. -/
theorem varyFind_none_all_skip (wc : Bool) (sfx : String) (rx : Option String) (nm : String)
    (l : List Node) (h : varyFind wc sfx rx nm l = .ok none) :
    ∀ x ∈ l, varySigSkip x wc sfx rx = true := by
  induction l with
  | nil => intro x hx; simp at hx
  | cons c rest ih =>
    intro x hx
    unfold varyFind at h
    split at h
    · rename_i hskip
      rcases List.mem_cons.mp hx with hx | hx
      · rw [hx]; exact hskip
      · refine ih ?_ x hx
        cases hr : varyFind wc sfx rx nm rest with
        | ok o =>
          cases o with
          | none => rfl
          | some p => rw [hr] at h; simp [Except.map] at h
        | error e => rw [hr] at h; simp [Except.map] at h
    · split at h
      · exact Except.noConfusion h
      · simp at h

/-- What a successful dedup hit tells us: the node sits at the returned
index, it was not skipped, and its name agrees. -/
theorem varyFind_some_props (wc : Bool) (sfx : String) (rx : Option String) (nm : String)
    (l : List Node) (i : Nat) (c : Node)
    (h : varyFind wc sfx rx nm l = .ok (some (i, c))) :
    l.get? i = some c ∧ varySigSkip c wc sfx rx = false ∧ c.data.name = nm := by
  induction l generalizing i c with
  | nil => simp [varyFind] at h
  | cons d rest ih =>
    unfold varyFind at h
    split at h
    · rename_i hskip
      cases hr : varyFind wc sfx rx nm rest with
      | ok o =>
        cases o with
        | none => rw [hr] at h; simp [Except.map] at h
        | some p =>
          obtain ⟨j, e⟩ := p
          rw [hr] at h
          simp only [Except.map, Option.map] at h
          rw [Except.ok.injEq, Option.some.injEq, Prod.mk.injEq] at h
          obtain ⟨hi, he⟩ := h
          obtain ⟨hj, hc, hn⟩ := ih j e hr
          subst he
          rw [← hi]
          exact ⟨by simpa using hj, hc, hn⟩
      | error e => rw [hr] at h; simp [Except.map] at h
    · split at h
      · exact Except.noConfusion h
      · rename_i hskip hname
        rw [Except.ok.injEq, Option.some.injEq, Prod.mk.injEq] at h
        obtain ⟨hi, he⟩ := h
        subst he
        rw [← hi]
        refine ⟨rfl, by simpa using hskip, by simpa using hname⟩

/-- Replacing the found sibling by one with the same signature and name makes
the dedup scan find the replacement at the same index. -/
theorem varyFind_set (wc : Bool) (sfx : String) (rx : Option String) (nm : String)
    (l : List Node) (i : Nat) (c c2 : Node)
    (h : varyFind wc sfx rx nm l = .ok (some (i, c)))
    (hskip2 : varySigSkip c2 wc sfx rx = false) (hname2 : c2.data.name = nm) :
    varyFind wc sfx rx nm (l.set i c2) = .ok (some (i, c2)) := by
  induction l generalizing i c with
  | nil => simp [varyFind] at h
  | cons d rest ih =>
    unfold varyFind at h
    split at h
    · rename_i hskip
      cases hr : varyFind wc sfx rx nm rest with
      | ok o =>
        cases o with
        | none => rw [hr] at h; simp [Except.map] at h
        | some p =>
          obtain ⟨j, e⟩ := p
          rw [hr] at h
          simp only [Except.map, Option.map] at h
          rw [Except.ok.injEq, Option.some.injEq, Prod.mk.injEq] at h
          obtain ⟨hi, he⟩ := h
          subst he
          cases i with
          | zero => exact absurd hi (by simp)
          | succ i' =>
            have hij : j = i' := by omega
            subst hij
            simp only [List.set]
            unfold varyFind
            rw [if_pos hskip, ih j e hr]
            simp [Except.map]
      | error e => rw [hr] at h; simp [Except.map] at h
    · split at h
      · exact Except.noConfusion h
      · rw [Except.ok.injEq, Option.some.injEq, Prod.mk.injEq] at h
        obtain ⟨hi, he⟩ := h
        cases i with
        | zero =>
          simp only [List.set]
          unfold varyFind
          rw [if_neg (by simp [hskip2]), if_neg (by simp [hname2])]
        | succ i' => exact absurd hi (by simp)

/-- The dedup scan returns the first unskipped index, given that everything
before it is skipped and the node there agrees on the name. -/
theorem varyFind_of_layout (wc : Bool) (sfx : String) (rx : Option String) (nm : String)
    (l : List Node) (i : Nat) (c : Node)
    (hget : l.get? i = some c)
    (hbefore : ∀ j, j < i → ∀ d, l.get? j = some d → varySigSkip d wc sfx rx = true)
    (hskip : varySigSkip c wc sfx rx = false) (hname : c.data.name = nm) :
    varyFind wc sfx rx nm l = .ok (some (i, c)) := by
  induction l generalizing i with
  | nil => simp at hget
  | cons d rest ih =>
    cases i with
    | zero =>
      rw [List.get?] at hget
      rw [Option.some.injEq] at hget
      subst hget
      unfold varyFind
      rw [if_neg (by simp [hskip]), if_neg (by simp [hname])]
    | succ i' =>
      rw [List.get?] at hget
      have hd : varySigSkip d wc sfx rx = true :=
        hbefore 0 (Nat.succ_pos i') d rfl
      unfold varyFind
      rw [if_pos hd]
      rw [ih i' hget (fun j hj e he => hbefore (j + 1) (Nat.succ_lt_succ hj) e he)]
      simp [Except.map]

theorem firstIdx_lt_of_mem (p : Node → Bool) (l : List Node) (x : Node)
    (hx : x ∈ l) (hpx : p x = true) : firstIdx p l < l.length := by
  induction l with
  | nil => simp at hx
  | cons c rest ih =>
    unfold firstIdx
    by_cases hc : p c = true
    · simp [hc]
    · rcases List.mem_cons.mp hx with hx | hx
      · rw [← hx] at hc; exact absurd hpx hc
      · rw [if_neg hc]
        simpa [Nat.succ_lt_succ_iff] using ih hx

theorem firstIdx_get? (p : Node → Bool) (l : List Node)
    (h : firstIdx p l < l.length) :
    ∃ c, l.get? (firstIdx p l) = some c ∧ p c = true := by
  induction l with
  | nil => simp at h
  | cons c rest ih =>
    unfold firstIdx at h ⊢
    by_cases hc : p c = true
    · exact ⟨c, by simp [hc], hc⟩
    · rw [if_neg hc] at h ⊢
      obtain ⟨e, he, hpe⟩ := ih (by simpa [Nat.succ_lt_succ_iff] using h)
      exact ⟨e, by simpa using he, hpe⟩

theorem firstIdx_before (p : Node → Bool) (l : List Node) (j : Nat) (d : Node)
    (hj : j < firstIdx p l) (hget : l.get? j = some d) : p d = false := by
  induction l generalizing j with
  | nil => simp at hget
  | cons c rest ih =>
    unfold firstIdx at hj
    by_cases hc : p c = true
    · rw [if_pos hc] at hj; omega
    · rw [if_neg hc] at hj
      cases j with
      | zero =>
        rw [List.get?, Option.some.injEq] at hget
        subst hget
        exact Bool.eq_false_iff.mpr hc
      | succ j' =>
        rw [List.get?] at hget
        exact ih j' (by omega) hget

theorem mem_insertDesc (x a : Node) (l : List Node) :
    x ∈ insertDesc a l ↔ x = a ∨ x ∈ l := by
  induction l with
  | nil => simp [insertDesc]
  | cons c rest ih =>
    unfold insertDesc
    split
    · simp [List.mem_cons]
    · simp only [List.mem_cons, ih]
      tauto

theorem mem_sortDesc (x : Node) (l : List Node) : x ∈ sortDesc l ↔ x ∈ l := by
  induction l with
  | nil => simp [sortDesc]
  | cons c rest ih =>
    unfold sortDesc
    rw [mem_insertDesc]
    simp only [List.mem_cons, ih]

/-- A node built from the clause data is never skipped against that data. -/
theorem varySigSkip_build (nm : String) (pr : Nat) (sfx : String) (rx : Option String)
    (wc : Bool) :
    varySigSkip
      (Node.mk { name := nm, priority := pr, suffix := sfx, regex := rx, wildcard := wc } [] [])
      wc sfx rx = false := by
  cases rx <;> simp [varySigSkip]

/-- Skipping only looks at the wildcard flag, the suffix and the regex. -/
theorem varySigSkip_congr (c d : Node) (wc : Bool) (sfx : String) (rx : Option String)
    (hw : c.data.wildcard = d.data.wildcard) (hs : c.data.suffix = d.data.suffix)
    (hr : c.data.regex = d.data.regex) :
    varySigSkip c wc sfx rx = varySigSkip d wc sfx rx := by
  simp [varySigSkip, hw, hs, hr]

theorem getSegmentKey_empty (ic : Bool) : getSegmentKey ic "" = "" := by
  cases ic <;> rfl

theorem lookup_setAt_key (n : Node) (k : String) (v : Node) :
    lookupChild (setAt n (.key k) v).children k = some v := by
  cases n
  simp [setAt, lookupChild_setChild_self]

theorem children_setAt_vary (n : Node) (i : Nat) (v : Node) :
    (setAt n (.vary i) v).children = n.children := by
  cases n
  simp [setAt]

theorem vary_setAt_vary (n : Node) (i : Nat) (v : Node) :
    (setAt n (.vary i) v).varyChildren = n.varyChildren.set i v := by
  cases n
  simp [setAt]

/-- Re-running `_parseNode` on the updated parent finds the child again, in
the same slot and without further modification — for any replacement child
that agrees with the first-run child on the name and the type signature
(which is all `_parseNode` inspects). -/
theorem parseNode_idem (ic : Bool) (parent : Node) (seg : String) (p1 c : Node)
    (step : Step) (c2 : Node)
    (h : parseNode ic parent seg = .ok (p1, c, step))
    (hn : c2.data.name = c.data.name) (hw : c2.data.wildcard = c.data.wildcard)
    (hs : c2.data.suffix = c.data.suffix) (hr : c2.data.regex = c.data.regex) :
    parseNode ic (setAt p1 step c2) seg = .ok (setAt p1 step c2, c2, step) := by
  unfold parseNode at h
  simp only [] at h
  cases hlook : lookupChild parent.children (getSegmentKey ic seg) with
  | some c0 =>
    simp only [hlook] at h
    rw [Except.ok.injEq, Prod.mk.injEq, Prod.mk.injEq] at h
    obtain ⟨hp, hc, hstep⟩ := h
    subst hp
    subst hc
    subst hstep
    unfold parseNode
    simp only [lookup_setAt_key]
  | none =>
    simp only [hlook] at h
    split at h
    · -- the empty segment: the index child is created under the static key ""
      rename_i hseg
      subst hseg
      rw [Except.ok.injEq, Prod.mk.injEq, Prod.mk.injEq] at h
      obtain ⟨hp, hc, hstep⟩ := h
      subst hp
      subst hc
      subst hstep
      unfold parseNode
      rw [getSegmentKey_empty]
      simp only [lookup_setAt_key]
    · split at h
      · -- the dynamic branch
        rename_i hseg hcolon
        cases hstrip : stripClauses ⟨seg.data.drop 1⟩ with
        | error e => simp only [hstrip] at h; exact Except.noConfusion h
        | ok info =>
          simp only [hstrip] at h
          split at h
          · exact Except.noConfusion h
          · rename_i hword
            cases hvf : varyFind info.wildcard info.suffix info.regex info.name
                parent.varyChildren with
            | error e => simp only [hvf] at h; exact Except.noConfusion h
            | ok o =>
              cases o with
              | some p =>
                obtain ⟨i, c0⟩ := p
                simp only [hvf] at h
                rw [Except.ok.injEq, Prod.mk.injEq, Prod.mk.injEq] at h
                obtain ⟨hp, hc, hstep⟩ := h
                subst hp
                subst hc
                subst hstep
                have props := varyFind_some_props _ _ _ _ _ _ _ hvf
                have hskip2 : varySigSkip c2 info.wildcard info.suffix info.regex = false := by
                  rw [varySigSkip_congr c2 c0 _ _ _ hw hs hr]
                  exact props.2.1
                have hname2 : c2.data.name = info.name := by rw [hn]; exact props.2.2
                have hvf2 := varyFind_set _ _ _ _ _ _ _ c2 hvf hskip2 hname2
                unfold parseNode
                have hch := children_setAt_vary parent i c2
                simp only [hch, hlook, if_neg hseg, if_pos hcolon, hstrip, if_neg hword,
                  vary_setAt_vary, hvf2]
              | none =>
                simp only [hvf] at h
                rw [Except.ok.injEq, Prod.mk.injEq, Prod.mk.injEq] at h
                obtain ⟨hp, hc, hstep⟩ := h
                subst hc
                subst hp
                subst hstep
                -- names for the pushed node, the re-sorted list and the landing index
                set nd : Node := Node.mk
                  { name := info.name, priority := info.priority, suffix := info.suffix,
                    regex := info.regex, wildcard := info.wildcard } [] [] with hnd
                set pushed : List Node := parent.varyChildren ++ [nd] with hpushed
                set vc : List Node :=
                  if 1 < pushed.length then sortDesc pushed else pushed with hvc
                set idx : Nat :=
                  firstIdx (fun c => !varySigSkip c info.wildcard info.suffix info.regex) vc
                  with hidx
                have hallskip := varyFind_none_all_skip _ _ _ _ _ hvf
                have hndskip : varySigSkip nd info.wildcard info.suffix info.regex = false := by
                  rw [hnd]; exact varySigSkip_build _ _ _ _ _
                have hmemnd : nd ∈ vc := by
                  rw [hvc]
                  split
                  · rw [mem_sortDesc]; simp [hpushed]
                  · simp [hpushed]
                have hidxlt : idx < vc.length := by
                  rw [hidx]
                  exact firstIdx_lt_of_mem _ vc nd hmemnd (by simp [hndskip])
                obtain ⟨cidx, hgetidx, hpidx⟩ := firstIdx_get? _ vc hidxlt
                have hcidx : cidx = nd := by
                  have hmemc : cidx ∈ vc := List.get?_mem hgetidx
                  have hmemp : cidx ∈ pushed := by
                    rw [hvc] at hmemc
                    rcases Decidable.em (1 < pushed.length) with hlen | hlen
                    · rw [if_pos hlen] at hmemc; exact (mem_sortDesc _ _).mp hmemc
                    · rw [if_neg hlen] at hmemc; exact hmemc
                  rw [hpushed] at hmemp
                  rcases List.mem_append.mp hmemp with hv | hone
                  · exfalso
                    have := hallskip cidx hv
                    rw [this] at hpidx
                    simp at hpidx
                  · simpa using hone
                subst hcidx
                have hskip2 : varySigSkip c2 info.wildcard info.suffix info.regex = false := by
                  rw [varySigSkip_congr c2 nd _ _ _ hw hs hr]
                  exact (by simpa using hpidx)
                have hname2 : c2.data.name = info.name := by simp [hn, hnd]
                have hget2 : (vc.set idx c2).get? idx = some c2 :=
                  get?_set_self vc idx c2 nd hgetidx
                have hbefore : ∀ j, j < idx → ∀ d, (vc.set idx c2).get? j = some d →
                    varySigSkip d info.wildcard info.suffix info.regex = true := by
                  intro j hj d hd
                  rw [get?_set_ne vc idx j c2 (Nat.ne_of_lt hj)] at hd
                  have := firstIdx_before _ vc j d hj hd
                  simpa using this
                have hvf2 := varyFind_of_layout info.wildcard info.suffix info.regex info.name
                  (vc.set idx c2) idx c2 hget2 hbefore hskip2 hname2
                unfold parseNode
                have hch : (setAt (parent.withVary vc) (.vary idx) c2).children
                    = parent.children := by
                  rw [children_setAt_vary, children_withVary]
                have hvy : (setAt (parent.withVary vc) (.vary idx) c2).varyChildren
                    = vc.set idx c2 := by
                  rw [vary_setAt_vary, vary_withVary]
                simp only [hch, hlook, if_neg hseg, if_pos hcolon, hstrip, if_neg hword,
                  hvy, hvf2]
      · split at h
        · -- the escaped-colon branch is dead: it contradicts the colon test
          rename_i hseg hcolon hdc
          exact absurd (doubleColon_headIs seg hdc) hcolon
        · split at h
          · exact Except.noConfusion h
          · -- the static branch
            rw [Except.ok.injEq, Prod.mk.injEq, Prod.mk.injEq] at h
            obtain ⟨hp, hc, hstep⟩ := h
            subst hp
            subst hc
            subst hstep
            unfold parseNode
            simp only [lookup_setAt_key]

/-- The pattern assignment is applied only once: re-running it on its own
output changes nothing. -/
theorem patternStep_idem (x : Node) (pat : String) :
    (if (if x.data.pattern = "" then x.withPattern pat else x).data.pattern = "" then
      (if x.data.pattern = "" then x.withPattern pat else x).withPattern pat
    else (if x.data.pattern = "" then x.withPattern pat else x))
      = (if x.data.pattern = "" then x.withPattern pat else x) := by
  by_cases hx : x.data.pattern = ""
  · rw [if_pos hx]
    split
    · exact withPattern_self _ _ (by simp [Node.withPattern])
    · rfl
  · simp [hx]

/-- Re-running `_defineNode` on the updated parent walks the same path,
changes nothing, and returns the same endpoint node. -/
theorem defineNode_idem (ic : Bool) (pat : String) (segs : List String)
    (parent p' n : Node) (h : defineNode ic pat parent segs = .ok (p', n)) :
    defineNode ic pat p' segs = .ok (p', n) := by
  induction segs generalizing parent p' n with
  | nil => exact absurd h (by simp [defineNode])
  | cons seg rest ih =>
    unfold defineNode at h
    split at h
    · exact Except.noConfusion h
    · rename_i p1 child step hp
      cases rest with
      | nil =>
        simp only [] at h
        rw [Except.ok.injEq, Prod.mk.injEq] at h
        obtain ⟨hp', hn⟩ := h
        rw [← hp']
        rw [hn]
        have hsegv : n.data.segment = seg := by
          rw [← hn]
          split <;> simp [Node.withPattern, Node.withEndpoint, Node.withSegment]
        have hendv : n.data.endpoint = true := by
          rw [← hn]
          split <;> simp [Node.withPattern, Node.withEndpoint, Node.withSegment]
        have hnm : n.data.name = child.data.name := by
          rw [← hn]
          split <;> simp [Node.withPattern, Node.withEndpoint, Node.withSegment]
        have hwc : n.data.wildcard = child.data.wildcard := by
          rw [← hn]
          split <;> simp [Node.withPattern, Node.withEndpoint, Node.withSegment]
        have hsf : n.data.suffix = child.data.suffix := by
          rw [← hn]
          split <;> simp [Node.withPattern, Node.withEndpoint, Node.withSegment]
        have hrx : n.data.regex = child.data.regex := by
          rw [← hn]
          split <;> simp [Node.withPattern, Node.withEndpoint, Node.withSegment]
        have hps : (if n.data.pattern = "" then n.withPattern pat else n) = n := by
          rw [← hn]
          exact patternStep_idem ((child.withSegment seg).withEndpoint true) pat
        have hidem := parseNode_idem ic parent seg p1 child step n hp hnm hwc hsf hrx
        unfold defineNode
        simp only [hidem, withSegment_self n seg hsegv, withEndpoint_self n true hendv,
          hps]
        rw [setAt_setAt]
      | cons r rs =>
        simp only [] at h
        split at h
        · exact Except.noConfusion h
        · rename_i hwc
          split at h
          · exact Except.noConfusion h
          · rename_i child' n0 hrec
            rw [Except.ok.injEq, Prod.mk.injEq] at h
            obtain ⟨hp', hn⟩ := h
            rw [← hp', ← hn]
            have hcd : child'.data = (child.withSegment seg).data :=
              defineNode_data ic pat (r :: rs) (child.withSegment seg) child' n0 hrec
            have hnm : child'.data.name = child.data.name := by
              rw [hcd]; simp [Node.withSegment]
            have hwc2 : child'.data.wildcard = child.data.wildcard := by
              rw [hcd]; simp [Node.withSegment]
            have hsf : child'.data.suffix = child.data.suffix := by
              rw [hcd]; simp [Node.withSegment]
            have hrx : child'.data.regex = child.data.regex := by
              rw [hcd]; simp [Node.withSegment]
            have hsegv : child'.data.segment = seg := by
              rw [hcd]; simp [Node.withSegment]
            have hidem := parseNode_idem ic parent seg p1 child step child' hp hnm hwc2 hsf hrx
            have hwcf : ¬(child'.data.wildcard = true) := by
              rw [hcd]; exact hwc
            unfold defineNode
            simp only [hidem, withSegment_self child' seg hsegv, if_neg hwcf,
              ih (child.withSegment seg) child' n0 hrec]
            rw [setAt_setAt]

/-! ### Claim theorems -/

/-- Claim C1. The claim states that defining `/a/:w*`, `/a/:b`, `/a/:c(x|y)`,
`/a/:d+suf` in that order all succeed. On the code the third call already
fails with the Name-Conflict error: the dedup signature check of `_parseNode`
(line 301-302) skips a sibling only when both regexes are present and differ,
so the regex-free sibling `:b` is treated as having the same type signature
as `:c(x|y)` and the differing names conflict. The first two calls succeed. -/
theorem c1_regex_sibling_conflicts :
    isOkE (defineFn (Trie.new true true true) "/a/:w*") = true ∧
    isOkE (defineFn (defineOp (Trie.new true true true) "/a/:w*") "/a/:b") = true ∧
    errOf (defineFn (defineOp (defineOp (Trie.new true true true) "/a/:w*") "/a/:b")
        "/a/:c(x|y)") = some .nameConflict := by
  refine ⟨by decide, by decide, by decide⟩

/-- Claim C2. The claim states that a dynamic segment carrying both a regex
and a suffix clause gets priority 7 = 4 + 3. The code parses the suffix
(setting priority 4) and then the regex clause overwrites the priority with 3
(`node.priority = 3`, line 283) instead of adding, so `/a/:e(a+)+a2` yields a
node with suffix "a2", regex source "a+", and priority 3, not 7. -/
theorem c2_regex_suffix_priority_is_three :
    (okNode (defineFn (Trie.new true true true) "/a/:e(a+)+a2")).map
        (fun n => n.data.priority) = some 3 ∧
    (okNode (defineFn (Trie.new true true true) "/a/:e(a+)+a2")).map
        (fun n => n.data.suffix) = some "a2" ∧
    (okNode (defineFn (Trie.new true true true) "/a/:e(a+)+a2")).map
        (fun n => n.data.regex) = some (some "a+") ∧
    (okNode (defineFn (Trie.new true true true) "/a/:e(a+)+a2")).map
        (fun n => n.data.wildcard) = some false := by
  refine ⟨by decide, by decide, by decide, by decide⟩

/-- Claim C6. The claim's scenario `define('/a/::b')` cannot even be set up:
`_parseNode` tests `segment[0] === ':'` (line 256) before the double-colon
escape test (line 315), so `::b` enters the dynamic branch, its name `:b`
fails `wordReg`, and define throws Invalid pattern — even though
`doubleColonTest "::b"` holds, i.e. the segment is exactly the escaped-colon
form. Moreover, even for a hand-built eligible escaped-colon node stored in
the static map under key `:b`, the pruning step dispatches on the segment's
leading `:` and attempts the `varyChildren` identity splice, which removes
nothing: the parent keeps the static child. -/
theorem c6_escaped_colon_define_throws_and_prune_misses :
    errOf (defineFn (Trie.new true true true) "/a/::b") = some .invalidPattern ∧
    doubleColonTest "::b" = true ∧
    ((pruneStep true
        (Node.mk { segment := "a", priority := 50 }
          [(":b", Node.mk { segment := "::b", priority := 50, endpoint := true } [] [])] [])
        (Step.key ":b")
        (clearRoute (Node.mk { segment := "::b", priority := 50, endpoint := true } [] []))).children).isEmpty
      = false := by
  refine ⟨by decide, by decide, by decide⟩

/-- Claim C3, counterexample. The claim states that `define('/a/:1abc')`
fails because the parameter name starts with a digit; on the code `wordReg`
is `/^\w+$/`, which accepts digit-leading names, so the call succeeds and
creates a parameter named `1abc`. -/
theorem c3_digit_leading_name_is_accepted :
    isOkE (defineFn (Trie.new true true true) "/a/:1abc") = true ∧
    (okNode (defineFn (Trie.new true true true) "/a/:1abc")).map
        (fun n => n.data.name) = some "1abc" := by
  refine ⟨by decide, by decide⟩

/-- Claim C3, as amended: with the digit-start condition dropped, the failure
rule holds — when a `:`-segment is not already present in the parent's static
map and its name, after the wildcard/suffix/regex clauses are stripped, is
empty or contains a character outside `[A-Za-z0-9_]` (i.e. fails `wordReg`),
`_parseNode` fails with the Invalid-Pattern error. -/
theorem c3_invalid_name_rejected (ic : Bool) (parent : Node) (seg : String)
    (info : DynInfo)
    (hcolon : headIs seg ':' = true)
    (hmiss : lookupChild parent.children (getSegmentKey ic seg) = none)
    (hstrip : stripClauses ⟨seg.data.drop 1⟩ = .ok info)
    (hword : wordTest info.name = false) :
    parseNode ic parent seg = .error .invalidPattern := by
  have hne : ¬ (seg = "") := by
    intro h
    subst h
    simp [headIs] at hcolon
  have hstrip' : stripClauses ⟨seg.data.tail⟩ = .ok info := by
    rw [← List.drop_one]; exact hstrip
  unfold parseNode
  simp [hmiss, hne, hcolon, hstrip', hword]

/-- Witness for C3's amended theorem, at the segment `:b$`. -/
theorem c3_invalid_name_rejected_witness :
    parseNode true Node.new ":b$" = .error .invalidPattern :=
  c3_invalid_name_rejected true Node.new ":b$" ⟨"b$", false, "", none, 2⟩
    (by decide) (by rfl) (by rfl) (by decide)

/-- Claim C5. Entering a wildcard dynamic node with a name captures the
remainder of the path from the start of the current segment (the `/`-join of
the current and all remaining segments, i.e. `path.slice(start, end)`) and
goes straight to the epilogue: no further segment is examined. Concretely,
with `/files/:filepath*` defined, matching `/files/templates/article.html`
captures `filepath = "templates/article.html"` and yields a node, while
matching `/files` yields no node. -/
theorem c5_wildcard_capture :
    (∀ (rt : String → String → Bool) (t : Trie) (fGt : Bool) (path : String)
        (parent : Node) (params : List (String × String)) (seg : String)
        (rest : List String) (nd : Node),
        resolveNode rt t parent seg = some nd →
        nd.data.name ≠ "" →
        nd.data.wildcard = true →
        matchLoop rt t fGt path parent params (seg :: rest) =
          finish t fGt path nd (setParam params nd.data.name (joinSegs (seg :: rest)))) ∧
    getParam (matchedOf (matchFn rt0 (defineOp (Trie.new true true true) "/files/:filepath*")
        "/files/templates/article.html")) "filepath" = some "templates/article.html" ∧
    (matchedOf (matchFn rt0 (defineOp (Trie.new true true true) "/files/:filepath*")
        "/files/templates/article.html")).node.isSome = true ∧
    (matchedOf (matchFn rt0 (defineOp (Trie.new true true true) "/files/:filepath*")
        "/files")).node.isNone = true := by
  refine ⟨?_, by decide, by decide, by decide⟩
  intro rt t fGt path parent params seg rest nd hres hname hwc
  unfold matchLoop
  simp [hres, hname, hwc]

/-- Witness for C5's general part, at the wildcard node of
`/files/:filepath*` and the segments `u`, `v`. -/
theorem c5_wildcard_capture_witness :
    matchLoop rt0 (defineOp (Trie.new true true true) "/files/:filepath*") false "/p"
        ((findNodeFn (defineOp (Trie.new true true true) "/files/:filepath*") "/files").getD
          Node.new) [] ["u", "v"] =
      finish (defineOp (Trie.new true true true) "/files/:filepath*") false "/p"
        ((resolveNode rt0 (defineOp (Trie.new true true true) "/files/:filepath*")
            ((findNodeFn (defineOp (Trie.new true true true) "/files/:filepath*") "/files").getD
              Node.new) "u").getD Node.new)
        (setParam []
          ((resolveNode rt0 (defineOp (Trie.new true true true) "/files/:filepath*")
              ((findNodeFn (defineOp (Trie.new true true true) "/files/:filepath*") "/files").getD
                Node.new) "u").getD Node.new).data.name
          (joinSegs ["u", "v"])) :=
  c5_wildcard_capture.1 rt0 (defineOp (Trie.new true true true) "/files/:filepath*") false "/p"
    ((findNodeFn (defineOp (Trie.new true true true) "/files/:filepath*") "/files").getD Node.new)
    [] "u" ["v"]
    ((resolveNode rt0 (defineOp (Trie.new true true true) "/files/:filepath*")
        ((findNodeFn (defineOp (Trie.new true true true) "/files/:filepath*") "/files").getD
          Node.new) "u").getD Node.new)
    (by rfl) (by decide) (by decide)

/-- Claim C7. With only `/h/i/j` defined, removing it prunes the whole chain:
the structural lookups for `/h/i/j`, `/h/i` and `/h` all report absence, and
the trie is back to its freshly created state (the root in particular is
untouched). With an unrelated route `/x` also defined, that route still
matches after the removal. The final conjunct is the structural guarantee
that the walk of `remove` never touches the scalar data of the node it
starts from — in particular the root is never evaluated for removal. -/
theorem c7_remove_prunes_upward :
    isOkE (defineFn (Trie.new true true true) "/h/i/j") = true ∧
    (findNodeFn (removeOp (defineOp (Trie.new true true true) "/h/i/j") "/h/i/j")
        "/h/i/j").isNone = true ∧
    (findNodeFn (removeOp (defineOp (Trie.new true true true) "/h/i/j") "/h/i/j")
        "/h/i").isNone = true ∧
    (findNodeFn (removeOp (defineOp (Trie.new true true true) "/h/i/j") "/h/i/j")
        "/h").isNone = true ∧
    removeOp (defineOp (Trie.new true true true) "/h/i/j") "/h/i/j" = Trie.new true true true ∧
    (matchedOf (matchFn rt0
        (removeOp (defineOp (defineOp (Trie.new true true true) "/x") "/h/i/j") "/h/i/j")
        "/x")).node.isSome = true ∧
    (∀ (ic : Bool) (node : Node) (seg : String) (rest : List String) (node' : Node),
        removeGo ic node (seg :: rest) = some node' → node'.data = node.data) := by
  refine ⟨by decide, by decide, by decide, by decide, by rfl, by decide, ?_⟩
  intro ic node seg rest node' h
  unfold removeGo at h
  cases hl : lookupChild node.children (getSegmentKey ic seg) with
  | some child =>
    simp only [hl] at h
    rw [Option.map_eq_some'] at h
    obtain ⟨c', _, rfl⟩ := h
    simp
  | none =>
    simp only [hl] at h
    cases hv : varySegFind seg node.varyChildren with
    | some p =>
      cases p with
      | mk i child =>
        simp only [hv] at h
        rw [Option.map_eq_some'] at h
        obtain ⟨c', _, rfl⟩ := h
        simp
    | none => simp only [hv] at h; exact absurd h (by simp)

/-- Witness for C7's structural conjunct, at the one-segment removal of `/a`
from a trie holding only `/a`. -/
theorem c7_remove_prunes_upward_witness :
    ((removeGo true (defineOp (Trie.new true true true) "/a").root ["a"]).getD Node.new).data
      = (defineOp (Trie.new true true true) "/a").root.data :=
  c7_remove_prunes_upward.2.2.2.2.2.2 true (defineOp (Trie.new true true true) "/a").root
    "a" []
    ((removeGo true (defineOp (Trie.new true true true) "/a").root ["a"]).getD Node.new)
    (by rfl)

/-- Claim C9. `match` never mutates the trie: whether the call returns a
result or throws on malformed input, the trie handed back by the call —
every node's data, children map and varyChildren list included — is exactly
the trie it was given. -/
theorem c9_match_reads_only (rt : String → String → Bool) (t : Trie) (p : String) :
    (matchFn rt t p).2 = t := by
  unfold matchFn
  split
  · rfl
  · simp only [matchLoop_trie]

/-- Claim C4. On every successful `match` call at most one of the fields
`node`, `fpr`, `tsr` carries information, and whenever `tsr` is proposed the
fixed-path condition was absent: either the option is off or the path needed
no slash-collapsing — so `fpr` takes precedence whenever both would apply. -/
theorem c4_at_most_one_info (rt : String → String → Bool) (t : Trie) (p : String)
    (m : Matched) (h : (matchFn rt t p).1 = .ok m) :
    infoCount m ≤ 1 ∧
      (m.tsr ≠ "" → t.fpr = false ∨ strLen p - strLen (collapseSlashes p) = 0) := by
  unfold matchFn at h
  split at h
  · exact absurd h (by simp)
  · simp only [] at h
    rw [Except.ok.injEq] at h
    subst h
    have hinfo := matchLoop_info rt t
      (decide (0 < if t.fpr then strLen p - strLen (if t.fpr then collapseSlashes p else p)
        else strLen p))
      (if t.fpr then collapseSlashes p else p)
      ((splitSlash ((if t.fpr then collapseSlashes p else p).data.drop 1)).map
        (fun cs => (⟨cs⟩ : String)))
      t.root []
    refine ⟨hinfo.1, fun htsr => ?_⟩
    have hno := hinfo.2 htsr
    by_cases hf : t.fpr = true
    · right
      by_contra hne
      refine hno ⟨hf, ?_⟩
      rw [hf]
      simp only [if_true]
      exact decide_eq_true (Nat.pos_of_ne_zero hne)
    · left
      exact Bool.eq_false_iff.mpr hf

/-- Witness for C4, at the trailing-slash redirect of `/test/` against a trie
holding only `/test`. -/
theorem c4_at_most_one_info_witness :
    infoCount ⟨none, [], "", "/test"⟩ ≤ 1 ∧
      (Matched.tsr ⟨none, [], "", "/test"⟩ ≠ "" →
        (defineOp (Trie.new true true true) "/test").fpr = false ∨
          strLen "/test/" - strLen (collapseSlashes "/test/") = 0) :=
  c4_at_most_one_info rt0 (defineOp (Trie.new true true true) "/test") "/test/"
    ⟨none, [], "", "/test"⟩ (by rfl)

/-- Claim C10. The root node is never an endpoint: after any sequence of
define and remove calls on a fresh trie the root's endpoint flag is still
false (defining `/` or the empty pattern marks the index child, not the
root); consequently a successful `match` never returns the root node; and on
a fresh trie, matching `/` returns a `Matched` with no node, no parameters,
and empty `fpr` and `tsr`. -/
theorem c10_root_never_endpoint :
    (∀ (ic f ts : Bool) (ops : List Op),
        (applyOps (Trie.new ic f ts) ops).root.data.endpoint = false) ∧
    (∀ (ic f ts : Bool) (ops : List Op) (rt : String → String → Bool) (p : String)
        (m : Matched) (n : Node),
        (matchFn rt (applyOps (Trie.new ic f ts) ops) p).1 = .ok m →
        m.node = some n → n ≠ (applyOps (Trie.new ic f ts) ops).root) ∧
    ((matchedOf (matchFn rt0 (Trie.new true true true) "/")).node.isNone = true ∧
      (matchedOf (matchFn rt0 (Trie.new true true true) "/")).params = [] ∧
      (matchedOf (matchFn rt0 (Trie.new true true true) "/")).fpr = "" ∧
      (matchedOf (matchFn rt0 (Trie.new true true true) "/")).tsr = "") := by
  have hroot : ∀ (ic f ts : Bool) (ops : List Op),
      (applyOps (Trie.new ic f ts) ops).root.data.endpoint = false :=
    fun ic f ts ops => applyOps_root_endpoint (Trie.new ic f ts) ops rfl
  refine ⟨hroot, ?_, by decide, by decide, by decide, by decide⟩
  intro ic f ts ops rt p m n h hn heq
  have hep := matchFn_node rt (applyOps (Trie.new ic f ts) ops) p m n h hn
  rw [heq, hroot ic f ts ops] at hep
  exact Bool.false_ne_true hep

/-- Claim C8. `define` is idempotent: if defining a pattern succeeded and
produced trie `t'` and node `n`, then defining the same pattern again leaves
the trie exactly as it is and returns the same node — the functional
rendering of "the identical node object both times". In particular the
second call does not overwrite the stored `pattern` text, which is part of
the unchanged trie. -/
theorem c8_define_idempotent (t : Trie) (p : String) (t' : Trie) (n : Node)
    (h : defineFn t p = .ok (t', n)) : defineFn t' p = .ok (t', n) := by
  unfold defineFn at h ⊢
  split at h
  · exact Except.noConfusion h
  · rename_i hds
    split at h
    · exact Except.noConfusion h
    · rename_i root' n0 hdef
      rw [Except.ok.injEq, Prod.mk.injEq] at h
      obtain ⟨ht', hn0⟩ := h
      rw [← ht', ← hn0]
      rw [if_neg hds]
      have hidem := defineNode_idem t.ignoreCase p (segmentsOf (stripLeadSlash p))
        t.root root' n0 hdef
      simp only [hidem]

/-- Witness for C8, at the pattern `/a/b` on a fresh trie. -/
theorem c8_define_idempotent_witness :
    defineFn (defineOp (Trie.new true true true) "/a/b") "/a/b" =
      .ok (defineOp (Trie.new true true true) "/a/b",
        (okNode (defineFn (Trie.new true true true) "/a/b")).getD Node.new) :=
  c8_define_idempotent (Trie.new true true true) "/a/b"
    (defineOp (Trie.new true true true) "/a/b")
    ((okNode (defineFn (Trie.new true true true) "/a/b")).getD Node.new)
    (by rfl)

/-- Witness for C10's match conjunct: with only `/x` defined, the node
matched for `/x` is not the root. -/
theorem c10_root_never_endpoint_witness :
    (matchedOf (matchFn rt0 (applyOps (Trie.new true true true) [Op.defOp "/x"]) "/x")).node.getD
        Node.new ≠ (applyOps (Trie.new true true true) [Op.defOp "/x"]).root :=
  c10_root_never_endpoint.2.1 true true true [Op.defOp "/x"] rt0 "/x"
    (matchedOf (matchFn rt0 (applyOps (Trie.new true true true) [Op.defOp "/x"]) "/x"))
    ((matchedOf (matchFn rt0 (applyOps (Trie.new true true true) [Op.defOp "/x"]) "/x")).node.getD
      Node.new)
    (by rfl) (by rfl)

end RouteTrie

